import Mathlib

/-!
Verification of the markut marker-parsing pipeline (src/markut.go).

The Go program is embedded shallowly:
* Go strings are Lean `String` values; the character-level work
  (`fmt.Sprintf` padding, `strings.Split`, `strconv.Atoi`) is modelled on
  `List Char`.
* Go `int` is `Int`; Go division and remainder truncate toward zero, so
  they are `Int.tdiv` and `Int.tmod`.
* A Go `panic` is modelled as the `Except.error` branch of an explicit
  error type `GoPanic`, one constructor per panic site of the program.
* The CSV file layer is out of scope per the specification ("read ordered
  records from a named source"); `loadChunksFromFile` therefore consumes a
  list of already-decoded marker records, each a timestamp with its
  ignore flag (markut.go lines 78 and 82 compute exactly this pair from a
  raw CSV record).
-/

namespace Markut

/-- The panics of markut.go, one constructor per `panic` call site that the
claims exercise: the timestamp-component check and `strconv.Atoi` failures
inside `tsToSecs`, the assertion in `Chunk.Duration`, and the two parse
errors of `loadChunksFromFile` (the out-of-chunk error carries the offending
already-delay-adjusted timestamp, as the Go format string does). -/
inductive GoPanic where
  | wrongTsComponents : GoPanic
  | invalidInt : GoPanic
  | incorrectEnd : GoPanic
  | outOfChunkIgnored : Int → GoPanic
  | unclosedChunk : GoPanic
deriving DecidableEq, Repr

/-- Equality of `Except` results is decidable componentwise; this lets
concrete parser runs be checked by evaluation. -/
instance {ε α : Type} [DecidableEq ε] [DecidableEq α] : DecidableEq (Except ε α) := fun a b =>
  match a, b with
  | Except.ok x, Except.ok y =>
    if h : x = y then isTrue (h ▸ rfl) else isFalse (fun hh => h (Except.ok.inj hh))
  | Except.error x, Except.error y =>
    if h : x = y then isTrue (h ▸ rfl) else isFalse (fun hh => h (Except.error.inj hh))
  | Except.ok _, Except.error _ => isFalse (fun hh => Except.noConfusion hh)
  | Except.error _, Except.ok _ => isFalse (fun hh => Except.noConfusion hh)

/-- Decimal digits of a natural number, most significant first, driven by a
fuel argument so that the definition is structurally recursive (the fuel is
always taken to be at least `n + 1`, which the lemmas show is enough). -/
def decDigitsCore : Nat → Nat → List Char
  | 0, _ => []
  | fuel + 1, n =>
    if n < 10 then [Nat.digitChar n]
    else decDigitsCore fuel (n / 10) ++ [Nat.digitChar (n % 10)]

/-- Decimal digit characters of `n`, most significant first. -/
def decDigits (n : Nat) : List Char := decDigitsCore (n + 1) n

/-- Model of `fmt.Sprintf` with verb `%02d` applied to a non-negative value: decimal
digits, zero-padded on the left to width at least 2. -/
def pad2 (n : Nat) : List Char :=
  List.replicate (2 - (decDigits n).length) '0' ++ decDigits n

/-- Model of `fmt.Sprintf` with verb `%02d` on a Go `int`.  For a negative value the
sign occupies one of the two columns, so the digits are never padded. -/
def pad2Int (i : Int) : List Char :=
  if i < 0 then '-' :: decDigits i.natAbs else pad2 i.toNat

/-- Accumulating decimal parser: consumes digit characters, failing on the
first non-digit. -/
def digitsVal : List Char → Nat → Option Nat
  | [], acc => some acc
  | c :: cs, acc =>
    if c.isDigit then digitsVal cs (10 * acc + (c.toNat - 48)) else none

/-- Model of `strconv.Atoi`: an optional single sign followed by a non-empty run of
decimal digits; anything else is an error (modelling Go's `ErrSyntax`,
which `panic_if_err` turns into a panic at the call sites). -/
def Atoi (cs : List Char) : Except GoPanic Int :=
  match cs with
  | [] => Except.error GoPanic.invalidInt
  | c :: rest =>
    if c = '-' then
      match rest, digitsVal rest 0 with
      | _ :: _, some n => Except.ok (-(n : Int))
      | _, _ => Except.error GoPanic.invalidInt
    else if c = '+' then
      match rest, digitsVal rest 0 with
      | _ :: _, some n => Except.ok (n : Int)
      | _, _ => Except.error GoPanic.invalidInt
    else
      match digitsVal (c :: rest) 0 with
      | some n => Except.ok (n : Int)
      | none => Except.error GoPanic.invalidInt

/-- Model of `strings.Split` with a one-character separator: splits around every
occurrence of `sep`, keeping empty fields, so the result always has one
more entry than there are separators. -/
def splitOnChar (sep : Char) : List Char → List (List Char)
  | [] => [[]]
  | c :: cs =>
    if c = sep then [] :: splitOnChar sep cs
    else
      match splitOnChar sep cs with
      | [] => [[c]]
      | r :: rs => (c :: r) :: rs

/-- The function `tsToSecs` (markut.go lines 20-34): split on a colon, demand exactly
three components, parse each with `Atoi`, and combine as
`60*60*hh + 60*mm + ss`. -/
def tsToSecs (ts : String) : Except GoPanic Int :=
  match splitOnChar ':' ts.toList with
  | [c1, c2, c3] => do
    let hh ← Atoi c1
    let mm ← Atoi c2
    let ss ← Atoi c3
    Except.ok (60 * 60 * hh + 60 * mm + ss)
  | _ => Except.error GoPanic.wrongTsComponents

/-- The function `secsToTs` (markut.go lines 36-41): `hh = secs/60/60`,
`mm = secs/60%60`, `ss = secs%60` with Go's truncating division, rendered
as `%02d:%02d:%02d`. -/
def secsToTs (secs : Int) : String :=
  String.mk (pad2Int (Int.tdiv (Int.tdiv secs 60) 60) ++
    ':' :: pad2Int (Int.tmod (Int.tdiv secs 60) 60) ++
    ':' :: pad2Int (Int.tmod secs 60))

/-- The `Chunk` struct (markut.go lines 43-48). -/
structure Chunk where
  Start : Int
  End : Int
  Ignored : List Int
  Name : String
deriving DecidableEq, Repr

/-- The method `Chunk.Duration` (markut.go lines 50-55): panics when the supplied end
lies before the chunk's start, otherwise returns the difference. -/
def Chunk.Duration (chunk : Chunk) (e : Int) : Except GoPanic Int :=
  if e < chunk.Start then Except.error GoPanic.incorrectEnd
  else Except.ok (e - chunk.Start)

/-- A decoded marker record: the integer first CSV field and whether the
second field equals the literal `ignore` (markut.go lines 78 and 82). -/
structure MarkerRecord where
  timestamp : Int
  ignore : Bool
deriving DecidableEq, Repr

/-- The name given to the chunk closed when `idx` chunks are already
finalized: `fmt.Sprintf` of `chunk-%02d.mp4` (markut.go line 97). -/
def chunkName (idx : Nat) : String :=
  String.mk (['c', 'h', 'u', 'n', 'k', '-'] ++ pad2 idx ++ ['.', 'm', 'p', '4'])

/-- The record loop of `loadChunksFromFile` (markut.go lines 64-108),
carrying the finalized chunks and the optional open chunk (`nil` in Go,
`none` here).  Each timestamp has `delay` added on arrival; an ignore
marker with no open chunk panics, an ignore marker inside an open chunk is
appended to its `Ignored`, a normal marker opens or closes a chunk, and an
open chunk left at end of input panics. -/
def loadChunksGo : List MarkerRecord → Int → List Chunk → Option Chunk →
    Except GoPanic (List Chunk)
  | [], _, chunks, chunkCurrent =>
    match chunkCurrent with
    | some _ => Except.error GoPanic.unclosedChunk
    | none => Except.ok chunks
  | r :: rs, delay, chunks, chunkCurrent =>
    let timestamp := r.timestamp + delay
    match chunkCurrent with
    | none =>
      if r.ignore then Except.error (GoPanic.outOfChunkIgnored timestamp)
      else loadChunksGo rs delay chunks (some (Chunk.mk timestamp 0 [] (String.mk [])))
    | some cur =>
      if r.ignore then
        loadChunksGo rs delay chunks
          (some { cur with Ignored := cur.Ignored ++ [timestamp] })
      else
        loadChunksGo rs delay
          (chunks ++ [{ cur with End := timestamp, Name := chunkName chunks.length }])
          none

/-- The function `loadChunksFromFile` (markut.go lines 57-109) on an already-decoded
record stream: start with no finalized chunks and no open chunk. -/
def loadChunksFromFile (records : List MarkerRecord) (delay : Int) :
    Except GoPanic (List Chunk) :=
  loadChunksGo records delay [] none

/-- The `Highlight` struct (markut.go lines 176-179). -/
structure Highlight where
  timestamp : String
  message : String
deriving DecidableEq, Repr

/-- The string literal `ignored` of markut.go line 189. -/
def ignoredMsg : String := String.mk ['i', 'g', 'n', 'o', 'r', 'e', 'd']

/-- The string literal `cut` of markut.go line 195. -/
def cutMsg : String := String.mk ['c', 'u', 't']

/-- The inner loop over a chunk's ignored timestamps (markut.go lines
186-191): one `ignored` highlight per timestamp at `secs + Duration(t)`,
in recorded order. -/
def ignoredHighlights (secs : Int) (chunk : Chunk) :
    List Int → Except GoPanic (List Highlight)
  | [] => Except.ok []
  | t :: ts => do
    let d ← chunk.Duration t
    let rest ← ignoredHighlights secs chunk ts
    Except.ok (Highlight.mk (secsToTs (secs + d)) ignoredMsg :: rest)

/-- The highlights one chunk contributes (loop body of `highlightChunks`,
markut.go lines 185-196): the `ignored` highlights, then one `cut`
highlight at `secs + Duration(End)`. -/
def highlightsOfChunk (secs : Int) (chunk : Chunk) :
    Except GoPanic (List Highlight) := do
  let igs ← ignoredHighlights secs chunk chunk.Ignored
  let d ← chunk.Duration chunk.End
  Except.ok (igs ++ [Highlight.mk (secsToTs (secs + d)) cutMsg])

/-- The chunk loop of `highlightChunks` (markut.go lines 181-202), with the
running cumulative counter `secs`; after a chunk's highlights, `secs`
advances by `Duration(End)`. -/
def highlightChunksGo : Int → List Chunk → Except GoPanic (List Highlight)
  | _, [] => Except.ok []
  | secs, chunk :: rest => do
    let hs ← highlightsOfChunk secs chunk
    let d ← chunk.Duration chunk.End
    let hrest ← highlightChunksGo (secs + d) rest
    Except.ok (hs ++ hrest)

/-- The function `highlightChunks` (markut.go lines 181-202): run the loop from 0. -/
def highlightChunks (chunks : List Chunk) : Except GoPanic (List Highlight) :=
  highlightChunksGo 0 chunks

/-- Outcome of the chunk-selection step of `chunkSubcommand`: the
user-reported error with exit status 1 (which discloses the available
count), a Go runtime index-out-of-range panic, or the selected chunk. -/
inductive ChunkSelect where
  | exitError : Int → Nat → ChunkSelect
  | panicOutOfRange : ChunkSelect
  | ok : Chunk → ChunkSelect
deriving DecidableEq, Repr

/-- The selection logic of `chunkSubcommand` (markut.go lines 267-272): if
the requested index exceeds `len(chunks)` the program prints the error
message disclosing the count and exits with status 1; otherwise it
evaluates `chunks[*chunkPtr]`, which panics at runtime whenever the index
is not strictly inside the slice. -/
def selectChunk (chunks : List Chunk) (i : Int) : ChunkSelect :=
  if (chunks.length : Int) < i then ChunkSelect.exitError i chunks.length
  else if h : 0 ≤ i ∧ i < (chunks.length : Int) then
    ChunkSelect.ok (chunks.get ⟨i.toNat, by omega⟩)
  else ChunkSelect.panicOutOfRange

/-- Number of non-ignore markers in a record stream. -/
def nonIgnoreCount (rs : List MarkerRecord) : Nat :=
  (rs.filter (fun r => !r.ignore)).length

/-- Every ignore marker of the stream arrives while a chunk is open, where
`b` says whether a chunk is open before the first record (equivalently:
every ignore marker is preceded, within the whole stream, by an odd count
of non-ignore markers when `b` starts as `false`). -/
def ignoresOnlyWhenOpen : Bool → List MarkerRecord → Bool
  | _, [] => true
  | b, r :: rs =>
    if r.ignore then b && ignoresOnlyWhenOpen b rs
    else ignoresOnlyWhenOpen (!b) rs

/-- A chunk shifted by a global delay: `Start`, `End` and every `Ignored`
timestamp move by `d`; the name is unchanged. -/
def shiftChunk (d : Int) (c : Chunk) : Chunk :=
  Chunk.mk (c.Start + d) (c.End + d) (c.Ignored.map (· + d)) c.Name

/-- A still-open chunk shifted by a global delay: only `Start` and the
`Ignored` timestamps have been filled in from input so far, so only they
move; the placeholder `End` and `Name` are untouched. -/
def shiftOpenChunk (d : Int) (c : Chunk) : Chunk :=
  Chunk.mk (c.Start + d) c.End (c.Ignored.map (· + d)) c.Name

/-- The data-model invariant claimed for a finalized chunk: the end does
not precede the start and every ignored timestamp lies between them. -/
def chunkWellFormed (c : Chunk) : Prop :=
  c.Start ≤ c.End ∧ ∀ t ∈ c.Ignored, c.Start ≤ t ∧ t ≤ c.End

/-- Sum over the chunks of `End - Start` (the duration of the concatenated
output). -/
def totalDuration (chunks : List Chunk) : Int :=
  (chunks.map (fun c => c.End - c.Start)).sum

/-! ### Lemmas about the timestamp codec -/

theorem decDigitsCore_fuel : ∀ f₁ f₂ n : Nat, n < f₁ → n < f₂ →
    decDigitsCore f₁ n = decDigitsCore f₂ n := by
  intro f₁
  induction f₁ with
  | zero => intro f₂ n h₁ _; omega
  | succ f ih =>
    intro f₂ n h₁ h₂
    match f₂, h₂ with
    | g + 1, h₂ =>
      show decDigitsCore (f + 1) n = decDigitsCore (g + 1) n
      by_cases hn : n < 10
      · simp [decDigitsCore, hn]
      · simp only [decDigitsCore, if_neg hn]
        have hd : n / 10 < n := Nat.div_lt_self (by omega) (by omega)
        rw [ih g (n / 10) (by omega) (by omega)]

theorem decDigits_eq (n : Nat) : decDigits n =
    if n < 10 then [Nat.digitChar n]
    else decDigits (n / 10) ++ [Nat.digitChar (n % 10)] := by
  have h0 : decDigits n = if n < 10 then [Nat.digitChar n]
      else decDigitsCore n (n / 10) ++ [Nat.digitChar (n % 10)] := rfl
  rw [h0]
  by_cases hn : n < 10
  · rw [if_pos hn, if_pos hn]
  · rw [if_neg hn, if_neg hn]
    have hd : n / 10 < n := Nat.div_lt_self (by omega) (by omega)
    have he : decDigitsCore n (n / 10) = decDigitsCore (n / 10 + 1) (n / 10) :=
      decDigitsCore_fuel n (n / 10 + 1) (n / 10) (by omega) (by omega)
    rw [he]
    rfl

theorem digitChar_isDigit : ∀ d, d < 10 → (Nat.digitChar d).isDigit = true := by
  decide

theorem digitChar_toNat : ∀ d, d < 10 → (Nat.digitChar d).toNat - 48 = d := by
  decide

theorem mem_decDigits_isDigit (n : Nat) :
    ∀ c ∈ decDigits n, c.isDigit = true := by
  induction n using Nat.strong_induction_on with
  | _ n ih =>
    intro c hc
    rw [decDigits_eq] at hc
    by_cases hn : n < 10
    · rw [if_pos hn] at hc
      simp only [List.mem_singleton] at hc
      exact hc ▸ digitChar_isDigit n hn
    · rw [if_neg hn] at hc
      rcases List.mem_append.mp hc with h | h
      · exact ih (n / 10) (Nat.div_lt_self (by omega) (by omega)) c h
      · simp only [List.mem_singleton] at h
        exact h ▸ digitChar_isDigit (n % 10) (Nat.mod_lt n (by omega))

theorem decDigits_ne_nil (n : Nat) : decDigits n ≠ [] := by
  rw [decDigits_eq]
  by_cases hn : n < 10 <;> simp [hn]

theorem digitsVal_append (xs ys : List Char) (acc : Nat) :
    digitsVal (xs ++ ys) acc = (digitsVal xs acc).bind (fun a => digitsVal ys a) := by
  induction xs generalizing acc with
  | nil => simp [digitsVal]
  | cons c cs ih =>
    by_cases hc : c.isDigit
    · simp [digitsVal, hc, ih]
    · simp [digitsVal, hc]

theorem digitsVal_decDigits (n : Nat) : ∀ acc : Nat,
    digitsVal (decDigits n) acc = some (acc * 10 ^ (decDigits n).length + n) := by
  induction n using Nat.strong_induction_on with
  | _ n ih =>
    intro acc
    by_cases hn : n < 10
    · rw [decDigits_eq, if_pos hn]
      have h1 : digitsVal [Nat.digitChar n] acc = some (10 * acc + n) := by
        simp [digitsVal, digitChar_isDigit n hn, digitChar_toNat n hn]
      rw [h1, List.length_singleton, pow_one]
      congr 1
      omega
    · have hd : n / 10 < n := Nat.div_lt_self (by omega) (by omega)
      rw [decDigits_eq, if_neg hn]
      rw [digitsVal_append, ih (n / 10) hd acc, Option.some_bind]
      have h10 : n % 10 < 10 := Nat.mod_lt n (by omega)
      have h2 : digitsVal [Nat.digitChar (n % 10)]
          (acc * 10 ^ (decDigits (n / 10)).length + n / 10) =
          some (10 * (acc * 10 ^ (decDigits (n / 10)).length + n / 10) + n % 10) := by
        simp [digitsVal, digitChar_isDigit _ h10, digitChar_toNat _ h10]
      rw [h2, List.length_append, List.length_singleton]
      congr 1
      have h3 : acc * 10 ^ ((decDigits (n / 10)).length + 1) =
          10 * (acc * 10 ^ (decDigits (n / 10)).length) := by
        rw [pow_succ]
        ring
      rw [h3]
      omega

theorem digitsVal_replicate_zero (k : Nat) :
    digitsVal (List.replicate k '0') 0 = some 0 := by
  induction k with
  | zero => simp [digitsVal]
  | succ m ih => simpa [List.replicate_succ, digitsVal] using ih

theorem digitsVal_pad2 (n : Nat) : digitsVal (pad2 n) 0 = some n := by
  unfold pad2
  rw [digitsVal_append, digitsVal_replicate_zero]
  simpa using digitsVal_decDigits n 0

theorem mem_pad2_isDigit (n : Nat) : ∀ c ∈ pad2 n, c.isDigit = true := by
  intro c hc
  rcases List.mem_append.mp hc with h | h
  · rw [List.eq_of_mem_replicate h]; decide
  · exact mem_decDigits_isDigit n c h

theorem pad2_ne_nil (n : Nat) : pad2 n ≠ [] := by
  unfold pad2
  intro h
  exact decDigits_ne_nil n (List.append_eq_nil.mp h).2

theorem Atoi_pad2 (n : Nat) : Atoi (pad2 n) = Except.ok (n : Int) := by
  match hp : pad2 n with
  | [] => exact absurd hp (pad2_ne_nil n)
  | c :: rest =>
    have hdig : c.isDigit = true :=
      mem_pad2_isDigit n c (hp ▸ List.mem_cons_self c rest)
    have hcm : c ≠ '-' := by intro h; rw [h] at hdig; simp at hdig
    have hcp : c ≠ '+' := by intro h; rw [h] at hdig; simp at hdig
    have hv := digitsVal_pad2 n
    rw [hp] at hv
    simp [Atoi, hcm, hcp, hv]

theorem colon_not_mem_pad2 (n : Nat) : ':' ∉ pad2 n := by
  intro h
  have := mem_pad2_isDigit n ':' h
  simp at this

theorem splitOnChar_not_mem (sep : Char) (l : List Char) (h : sep ∉ l) :
    splitOnChar sep l = [l] := by
  induction l with
  | nil => rfl
  | cons c cs ih =>
    have hc : c ≠ sep := fun he => h (he ▸ List.mem_cons_self c cs)
    have hcs : sep ∉ cs := fun hm => h (List.mem_cons_of_mem c hm)
    simp [splitOnChar, hc, ih hcs]

theorem splitOnChar_append (sep : Char) (xs ys : List Char) (h : sep ∉ xs) :
    splitOnChar sep (xs ++ sep :: ys) = xs :: splitOnChar sep ys := by
  induction xs with
  | nil => simp [splitOnChar]
  | cons c cs ih =>
    have hc : c ≠ sep := fun he => h (he ▸ List.mem_cons_self c cs)
    have hcs : sep ∉ cs := fun hm => h (List.mem_cons_of_mem c hm)
    show splitOnChar sep (c :: (cs ++ sep :: ys)) = (c :: cs) :: splitOnChar sep ys
    rw [splitOnChar, if_neg hc, ih hcs]

theorem secsToTs_ofNat (n : Nat) : secsToTs (n : Int) = String.mk
    (pad2 (n / 60 / 60) ++ ':' :: pad2 (n / 60 % 60) ++ ':' :: pad2 (n % 60)) := by
  have hdiv : ∀ a b : Nat, Int.tdiv (a : Int) (b : Int) = ((a / b : Nat) : Int) :=
    fun a b => rfl
  have hmod : ∀ a b : Nat, Int.tmod (a : Int) (b : Int) = ((a % b : Nat) : Int) :=
    fun a b => rfl
  have hpad : ∀ k : Nat, pad2Int ((k : Nat) : Int) = pad2 k := by
    intro k
    have hk : ¬ ((k : Int) < 0) := by omega
    rw [pad2Int, if_neg hk, Int.toNat_ofNat]
  rw [secsToTs]
  rw [show (60 : Int) = ((60 : Nat) : Int) from rfl]
  rw [hdiv, hdiv, hmod, hmod, hpad, hpad, hpad]

theorem tsToSecs_secsToTs (s : Int) (h : 0 ≤ s) :
    tsToSecs (secsToTs s) = Except.ok s := by
  obtain ⟨n, rfl⟩ := Int.eq_ofNat_of_zero_le h
  rw [secsToTs_ofNat]
  have hsplit : splitOnChar ':' (String.mk
      (pad2 (n / 60 / 60) ++ ':' :: pad2 (n / 60 % 60) ++ ':' :: pad2 (n % 60))).toList =
      [pad2 (n / 60 / 60), pad2 (n / 60 % 60), pad2 (n % 60)] := by
    show splitOnChar ':'
        (pad2 (n / 60 / 60) ++ ':' :: pad2 (n / 60 % 60) ++ ':' :: pad2 (n % 60)) = _
    rw [List.append_assoc, List.cons_append]
    rw [splitOnChar_append ':' _ _ (colon_not_mem_pad2 _)]
    rw [splitOnChar_append ':' _ _ (colon_not_mem_pad2 _)]
    rw [splitOnChar_not_mem ':' _ (colon_not_mem_pad2 _)]
  rw [tsToSecs, hsplit]
  simp only [Atoi_pad2]
  show Except.ok ((60 : Int) * 60 * ((n / 60 / 60 : Nat) : Int) +
      60 * ((n / 60 % 60 : Nat) : Int) + ((n % 60 : Nat) : Int)) = Except.ok ((n : Nat) : Int)
  congr 1
  omega

/-! ### Lemmas about the marker stream parser -/

theorem nonIgnoreCount_cons (r : MarkerRecord) (rs : List MarkerRecord) :
    nonIgnoreCount (r :: rs) =
      if r.ignore then nonIgnoreCount rs else nonIgnoreCount rs + 1 := by
  by_cases h : r.ignore <;> simp [nonIgnoreCount, List.filter, h]

/-- One induction for both halves of the parser totality question: running
the record loop from a state whose open-chunk flag agrees with the
`ignoresOnlyWhenOpen` scan succeeds exactly when the remaining non-ignore
markers restore parity, yielding one chunk per closed pair, and otherwise
ends in the unclosed-chunk panic. -/
theorem loadChunksGo_run : ∀ (rs : List MarkerRecord) (delay : Int)
    (chunks : List Chunk) (cur : Option Chunk),
    ignoresOnlyWhenOpen cur.isSome rs = true →
    ((nonIgnoreCount rs + cond cur.isSome 1 0) % 2 = 0 →
      ∃ cs, loadChunksGo rs delay chunks cur = Except.ok cs ∧
        cs.length = chunks.length + (nonIgnoreCount rs + cond cur.isSome 1 0) / 2) ∧
    ((nonIgnoreCount rs + cond cur.isSome 1 0) % 2 = 1 →
      loadChunksGo rs delay chunks cur = Except.error GoPanic.unclosedChunk) := by
  intro rs
  induction rs with
  | nil =>
    intro delay chunks cur _
    match cur with
    | none =>
      refine ⟨fun _ => ⟨chunks, rfl, ?_⟩, fun h1 => ?_⟩
      · simp [nonIgnoreCount]
      · simp [nonIgnoreCount] at h1
    | some c =>
      refine ⟨fun h0 => ?_, fun _ => rfl⟩
      simp [nonIgnoreCount] at h0
  | cons r rs ih =>
    intro delay chunks cur hscan
    match cur with
    | none =>
      by_cases hr : r.ignore
      · rw [ignoresOnlyWhenOpen, if_pos hr] at hscan
        simp at hscan
      · rw [ignoresOnlyWhenOpen, if_neg hr] at hscan
        simp only [Option.isSome_none, Bool.not_false] at hscan
        have hrec := ih delay chunks
          (some (Chunk.mk (r.timestamp + delay) 0 [] (String.mk []))) hscan
        rw [nonIgnoreCount_cons, if_neg hr]
        simp only [Option.isSome_some, cond_true, Option.isSome_none, cond_false] at *
        constructor
        · intro h0
          obtain ⟨cs, hcs, hlen⟩ := hrec.1 (by omega)
          refine ⟨cs, ?_, ?_⟩
          · rw [loadChunksGo]
            simp only [if_neg hr]
            exact hcs
          · omega
        · intro h1
          rw [loadChunksGo]
          simp only [if_neg hr]
          exact hrec.2 (by omega)
    | some c =>
      by_cases hr : r.ignore
      · rw [ignoresOnlyWhenOpen, if_pos hr] at hscan
        simp only [Option.isSome_some, Bool.true_and] at hscan
        have hrec := ih delay chunks
          (some { c with Ignored := c.Ignored ++ [r.timestamp + delay] }) hscan
        rw [nonIgnoreCount_cons, if_pos hr]
        simp only [Option.isSome_some, cond_true] at *
        constructor
        · intro h0
          obtain ⟨cs, hcs, hlen⟩ := hrec.1 h0
          refine ⟨cs, ?_, hlen⟩
          rw [loadChunksGo]
          simp only [if_pos hr]
          exact hcs
        · intro h1
          rw [loadChunksGo]
          simp only [if_pos hr]
          exact hrec.2 h1
      · rw [ignoresOnlyWhenOpen, if_neg hr] at hscan
        simp only [Option.isSome_some, Bool.not_true] at hscan
        have hrec := ih delay
          (chunks ++ [{ c with End := r.timestamp + delay, Name := chunkName chunks.length }])
          none hscan
        rw [nonIgnoreCount_cons, if_neg hr]
        simp only [Option.isSome_some, cond_true, Option.isSome_none, cond_false] at *
        constructor
        · intro h0
          obtain ⟨cs, hcs, hlen⟩ := hrec.1 (by omega)
          refine ⟨cs, ?_, ?_⟩
          · rw [loadChunksGo]
            simp only [if_neg hr]
            exact hcs
          · rw [hlen]
            simp only [List.length_append, List.length_cons, List.length_nil]
            omega
        · intro h1
          rw [loadChunksGo]
          simp only [if_neg hr]
          exact hrec.2 (by omega)

/-- Running the record loop with delay `d` from a `d`-shifted state gives
the `d`-shifted result of running it with delay `0`: errors coincide and
successful chunk lists are mapped chunkwise by `shiftChunk d`. -/
theorem loadChunksGo_shift : ∀ (rs : List MarkerRecord) (d : Int)
    (chunks : List Chunk) (cur : Option Chunk),
    (loadChunksGo rs d (chunks.map (shiftChunk d)) (cur.map (shiftOpenChunk d))).toOption
      = (loadChunksGo rs 0 chunks cur).toOption.map (List.map (shiftChunk d)) := by
  intro rs
  induction rs with
  | nil =>
    intro d chunks cur
    match cur with
    | none => simp [loadChunksGo, Except.toOption]
    | some c => simp [loadChunksGo, Except.toOption]
  | cons r rs ih =>
    intro d chunks cur
    match cur with
    | none =>
      show (loadChunksGo (r :: rs) d (chunks.map (shiftChunk d)) none).toOption
        = (loadChunksGo (r :: rs) 0 chunks none).toOption.map (List.map (shiftChunk d))
      by_cases hr : r.ignore
      · simp [loadChunksGo, hr, Except.toOption]
      · rw [loadChunksGo, loadChunksGo]
        simp only [if_neg hr]
        have hopen : (some (Chunk.mk (r.timestamp + d) 0 [] (String.mk []))) =
            (some (Chunk.mk (r.timestamp + 0) 0 [] (String.mk []))).map (shiftOpenChunk d) := by
          simp [shiftOpenChunk]
        rw [hopen]
        exact ih d chunks _
    | some c =>
      show (loadChunksGo (r :: rs) d (chunks.map (shiftChunk d)) (some (shiftOpenChunk d c))).toOption
        = (loadChunksGo (r :: rs) 0 chunks (some c)).toOption.map (List.map (shiftChunk d))
      by_cases hr : r.ignore
      · rw [loadChunksGo, loadChunksGo]
        simp only [if_pos hr]
        have happ : (some { (shiftOpenChunk d c) with Ignored := (shiftOpenChunk d c).Ignored ++ [r.timestamp + d] }) =
            (some { c with Ignored := c.Ignored ++ [r.timestamp + 0] }).map (shiftOpenChunk d) := by
          simp [shiftOpenChunk]
        rw [happ]
        exact ih d chunks _
      · rw [loadChunksGo, loadChunksGo]
        simp only [if_neg hr]
        have hclose : chunks.map (shiftChunk d) ++ [{ (shiftOpenChunk d c) with End := r.timestamp + d, Name := chunkName (chunks.map (shiftChunk d)).length }] =
            (chunks ++ [{ c with End := r.timestamp + 0, Name := chunkName chunks.length }]).map (shiftChunk d) := by
          simp [shiftChunk, shiftOpenChunk]
        rw [hclose]
        have := ih d (chunks ++ [{ c with End := r.timestamp + 0, Name := chunkName chunks.length }]) none
        simpa using this

/-- If the input timestamps are non-decreasing, the record loop preserves
chunk well-formedness: already-finalized chunks stay well-formed, and the
open chunk's recorded timestamps are bracketed by its start and every
upcoming timestamp. -/
theorem loadChunksGo_wellFormed : ∀ (rs : List MarkerRecord) (delay : Int)
    (chunks : List Chunk) (cur : Option Chunk) (cs : List Chunk),
    List.Pairwise (fun a b => a.timestamp ≤ b.timestamp) rs →
    (∀ c ∈ chunks, chunkWellFormed c) →
    (∀ cur', cur = some cur' →
      (∀ t ∈ cur'.Ignored, cur'.Start ≤ t) ∧
      (∀ r ∈ rs, cur'.Start ≤ r.timestamp + delay ∧
        ∀ t ∈ cur'.Ignored, t ≤ r.timestamp + delay)) →
    loadChunksGo rs delay chunks cur = Except.ok cs →
    ∀ c ∈ cs, chunkWellFormed c := by
  intro rs
  induction rs with
  | nil =>
    intro delay chunks cur cs _ hchunks _ hok
    match cur with
    | none =>
      rw [loadChunksGo] at hok
      cases hok
      exact hchunks
    | some c => exact absurd hok (by rw [loadChunksGo]; simp)
  | cons r rs ih =>
    intro delay chunks cur cs hsort hchunks hcur hok
    have hsort' : List.Pairwise (fun a b => a.timestamp ≤ b.timestamp) rs :=
      (List.pairwise_cons.mp hsort).2
    have hhead : ∀ r' ∈ rs, r.timestamp ≤ r'.timestamp :=
      (List.pairwise_cons.mp hsort).1
    match cur with
    | none =>
      by_cases hr : r.ignore
      · rw [loadChunksGo] at hok
        simp only [if_pos hr] at hok
        exact absurd hok (by simp)
      · rw [loadChunksGo] at hok
        simp only [if_neg hr] at hok
        refine ih delay chunks _ cs hsort' hchunks ?_ hok
        intro cur' heq
        cases heq
        refine ⟨by simp, ?_⟩
        intro r' hr'
        exact ⟨by simpa using Int.add_le_add_right (hhead r' hr') delay, by simp⟩
    | some c =>
      by_cases hr : r.ignore
      · rw [loadChunksGo] at hok
        simp only [if_pos hr] at hok
        obtain ⟨hign, hfut⟩ := hcur c rfl
        refine ih delay chunks _ cs hsort' hchunks ?_ hok
        intro cur' heq
        cases heq
        constructor
        · intro t ht
          simp only [List.mem_append, List.mem_singleton] at ht
          rcases ht with h | h
          · exact hign t h
          · exact h ▸ (hfut r (List.mem_cons_self r rs)).1
        · intro r' hr'
          refine ⟨(hfut r' (List.mem_cons_of_mem r hr')).1, ?_⟩
          intro t ht
          simp only [List.mem_append, List.mem_singleton] at ht
          rcases ht with h | h
          · exact (hfut r' (List.mem_cons_of_mem r hr')).2 t h
          · exact h ▸ (by simpa using Int.add_le_add_right (hhead r' hr') delay)
      · rw [loadChunksGo] at hok
        simp only [if_neg hr] at hok
        obtain ⟨hign, hfut⟩ := hcur c rfl
        have hnew : chunkWellFormed { c with End := r.timestamp + delay, Name := chunkName chunks.length } := by
          refine ⟨(hfut r (List.mem_cons_self r rs)).1, ?_⟩
          intro t ht
          exact ⟨hign t ht, (hfut r (List.mem_cons_self r rs)).2 t ht⟩
        refine ih delay _ none cs hsort' ?_ (by intro cur' heq; cases heq) hok
        intro ch hch
        rcases List.mem_append.mp hch with h | h
        · exact hchunks ch h
        · rw [List.mem_singleton.mp h]
          exact hnew

/-- The record loop numbers finalized chunks by their final position: if
the chunks accumulated so far are named by their index, so is every chunk
of a successful run. -/
theorem loadChunksGo_names : ∀ (rs : List MarkerRecord) (delay : Int)
    (chunks : List Chunk) (cur : Option Chunk) (cs : List Chunk),
    (∀ i (h : i < chunks.length), chunks[i].Name = chunkName i) →
    loadChunksGo rs delay chunks cur = Except.ok cs →
    ∀ i (h : i < cs.length), cs[i].Name = chunkName i := by
  intro rs
  induction rs with
  | nil =>
    intro delay chunks cur cs hnames hok
    match cur with
    | none =>
      rw [loadChunksGo] at hok
      cases hok
      exact hnames
    | some c => exact absurd hok (by rw [loadChunksGo]; simp)
  | cons r rs ih =>
    intro delay chunks cur cs hnames hok
    match cur with
    | none =>
      by_cases hr : r.ignore
      · rw [loadChunksGo] at hok
        simp only [if_pos hr] at hok
        exact absurd hok (by simp)
      · rw [loadChunksGo] at hok
        simp only [if_neg hr] at hok
        exact ih delay chunks _ cs hnames hok
    | some c =>
      by_cases hr : r.ignore
      · rw [loadChunksGo] at hok
        simp only [if_pos hr] at hok
        exact ih delay chunks _ cs hnames hok
      · rw [loadChunksGo] at hok
        simp only [if_neg hr] at hok
        refine ih delay _ none cs ?_ hok
        intro i h
        by_cases hi : i < chunks.length
        · rw [List.getElem_append_left hi]
          exact hnames i hi
        · have hlen : i = chunks.length := by
            simp only [List.length_append, List.length_cons, List.length_nil] at h
            omega
          subst hlen
          rw [List.getElem_append_right (by omega)]
          simp

/-! ### Lemmas about the highlight deriver -/

theorem Duration_ok (c : Chunk) (e : Int) (h : c.Start ≤ e) :
    Chunk.Duration c e = Except.ok (e - c.Start) := by
  rw [Chunk.Duration, if_neg (by omega)]

theorem ignoredHighlights_ok (secs : Int) (c : Chunk) :
    ∀ l : List Int, (∀ t ∈ l, c.Start ≤ t) →
    ∃ hs, ignoredHighlights secs c l = Except.ok hs := by
  intro l
  induction l with
  | nil => exact fun _ => ⟨[], rfl⟩
  | cons t ts ih =>
    intro h
    obtain ⟨hs, hhs⟩ := ih (fun u hu => h u (List.mem_cons_of_mem t hu))
    have hd := Duration_ok c t (h t (List.mem_cons_self t ts))
    refine ⟨Highlight.mk (secsToTs (secs + (t - c.Start))) ignoredMsg :: hs, ?_⟩
    rw [ignoredHighlights, hd]
    show (ignoredHighlights secs c ts).bind _ = _
    rw [hhs]
    rfl

theorem highlightsOfChunk_ok (secs : Int) (c : Chunk) (h1 : c.Start ≤ c.End)
    (h2 : ∀ t ∈ c.Ignored, c.Start ≤ t) :
    ∃ igs, highlightsOfChunk secs c =
      Except.ok (igs ++ [Highlight.mk (secsToTs (secs + (c.End - c.Start))) cutMsg]) := by
  obtain ⟨igs, higs⟩ := ignoredHighlights_ok secs c c.Ignored h2
  have hd := Duration_ok c c.End h1
  refine ⟨igs, ?_⟩
  rw [highlightsOfChunk, higs]
  show (Chunk.Duration c c.End).bind _ = _
  rw [hd]
  rfl

theorem highlightChunksGo_ok : ∀ (chunks : List Chunk) (secs : Int),
    (∀ c ∈ chunks, c.Start ≤ c.End ∧ ∀ t ∈ c.Ignored, c.Start ≤ t) →
    ∃ hs, highlightChunksGo secs chunks = Except.ok hs ∧
      (chunks ≠ [] →
        hs.getLast? = some (Highlight.mk (secsToTs (secs + totalDuration chunks)) cutMsg)) := by
  intro chunks
  induction chunks with
  | nil => exact fun secs _ => ⟨[], rfl, fun hne => absurd rfl hne⟩
  | cons c cs ih =>
    intro secs h
    have hc := h c (List.mem_cons_self c cs)
    obtain ⟨igs, hig⟩ := highlightsOfChunk_ok secs c hc.1 hc.2
    have hd := Duration_ok c c.End hc.1
    obtain ⟨hs2, hhs2, hlast2⟩ :=
      ih (secs + (c.End - c.Start)) (fun c' hc' => h c' (List.mem_cons_of_mem c hc'))
    refine ⟨(igs ++ [Highlight.mk (secsToTs (secs + (c.End - c.Start))) cutMsg]) ++ hs2, ?_, ?_⟩
    · rw [highlightChunksGo, hig]
      show (Chunk.Duration c c.End).bind _ = _
      rw [hd]
      show (highlightChunksGo (secs + (c.End - c.Start)) cs).bind _ = _
      rw [hhs2]
      rfl
    · intro _
      by_cases hcs : cs = []
      · subst hcs
        have hnil : hs2 = [] := by
          simpa [highlightChunksGo] using hhs2.symm
        subst hnil
        rw [List.append_nil, List.getLast?_append_cons, List.getLast?_singleton]
        have htot : totalDuration [c] = c.End - c.Start := by
          simp [totalDuration]
        rw [htot]
      · have h2 := hlast2 hcs
        have hne2 : hs2 ≠ [] := by
          intro hh
          rw [hh] at h2
          simp at h2
        rw [List.getLast?_append_of_ne_nil _ hne2, h2]
        have htot : secs + (c.End - c.Start) + totalDuration cs =
            secs + totalDuration (c :: cs) := by
          simp only [totalDuration, List.map_cons, List.sum_cons]
          ring
        rw [htot]

theorem getLast?_filter {α : Type} (p : α → Bool) (l : List α) (x : α)
    (h : l.getLast? = some x) (hp : p x = true) :
    (l.filter p).getLast? = some x := by
  induction l using List.reverseRecOn with
  | nil => simp at h
  | append_singleton l a _ =>
    rw [List.getLast?_append_cons, List.getLast?_singleton] at h
    have hax : a = x := by simpa using h
    subst hax
    rw [List.filter_append]
    have hfa : List.filter p [a] = [a] := by simp [List.filter, hp]
    rw [hfa, List.getLast?_append_cons, List.getLast?_singleton]

theorem totalDuration_nonneg (chunks : List Chunk)
    (h : ∀ c ∈ chunks, c.Start ≤ c.End) : 0 ≤ totalDuration chunks := by
  refine List.sum_nonneg ?_
  intro x hx
  rw [List.mem_map] at hx
  obtain ⟨c, hc, rfl⟩ := hx
  have := h c hc
  omega

/-! ### The claims -/

/-- Claim C1 (evidence of the code bug): against a 3-chunk stream the
single-chunk path's guard is the strict comparison of markut.go line 267,
so the zero-based index 3 — which is `≥` the chunk count 3 and should per
the claim be a user-reported fatal error — instead slips past the guard
and reaches the out-of-bounds slice access `chunks[3]`, a runtime panic;
index 4 is caught and reported with the available count 3 disclosed. -/
theorem claim_C1_selectChunk_off_by_one :
    selectChunk [Chunk.mk 0 1 [] (chunkName 0), Chunk.mk 1 2 [] (chunkName 1),
      Chunk.mk 2 3 [] (chunkName 2)] 3 = ChunkSelect.panicOutOfRange ∧
    selectChunk [Chunk.mk 0 1 [] (chunkName 0), Chunk.mk 1 2 [] (chunkName 1),
      Chunk.mk 2 3 [] (chunkName 2)] 4 = ChunkSelect.exitError 4 3 := by
  constructor
  · decide
  · decide

/-- Claim C2 (counterexample): the stream
`[(10,none),(20,none),(25,ignore),(30,none),(40,none)]` has an even number
of non-ignore markers (4) and no ignore-marker before the first non-ignore
marker, yet parsing fails (the ignore-marker at 25 arrives after the second
non-ignore marker has closed the first chunk, i.e. in the Idle state), so
the claim's hypotheses do not guarantee success. -/
theorem claim_C2_counterexample :
    nonIgnoreCount [MarkerRecord.mk 10 false, MarkerRecord.mk 20 false,
        MarkerRecord.mk 25 true, MarkerRecord.mk 30 false, MarkerRecord.mk 40 false] % 2 = 0 ∧
    (MarkerRecord.mk (10 : Int) false).ignore = false ∧
    (loadChunksFromFile [MarkerRecord.mk 10 false, MarkerRecord.mk 20 false,
        MarkerRecord.mk 25 true, MarkerRecord.mk 30 false, MarkerRecord.mk 40 false] 0).toOption
      = none := by
  refine ⟨by decide, rfl, by rfl⟩

/-- Claim C2 (amended): for every marker stream with an even number of
non-ignore markers in which every ignore-marker arrives while a chunk is
open (equivalently, is preceded by an odd number of non-ignore markers —
not merely "no ignore-marker before the first non-ignore marker"), parsing
succeeds with exactly (non-ignore count)/2 chunks, for any delay. -/
theorem claim_C2_parser_totality (rs : List MarkerRecord) (delay : Int)
    (heven : nonIgnoreCount rs % 2 = 0)
    (hscan : ignoresOnlyWhenOpen false rs = true) :
    ∃ cs, loadChunksFromFile rs delay = Except.ok cs ∧
      cs.length = nonIgnoreCount rs / 2 := by
  have h := loadChunksGo_run rs delay [] none (by simpa using hscan)
  obtain ⟨cs, hcs, hlen⟩ := h.1 (by simpa using heven)
  exact ⟨cs, hcs, by simpa using hlen⟩

theorem claim_C2_parser_totality_witness :
    ∃ cs, loadChunksFromFile [MarkerRecord.mk 10 false, MarkerRecord.mk 15 true,
        MarkerRecord.mk 20 false, MarkerRecord.mk 30 false, MarkerRecord.mk 40 false] 0
        = Except.ok cs ∧
      cs.length = nonIgnoreCount [MarkerRecord.mk 10 false, MarkerRecord.mk 15 true,
        MarkerRecord.mk 20 false, MarkerRecord.mk 30 false, MarkerRecord.mk 40 false] / 2 :=
  claim_C2_parser_totality [MarkerRecord.mk 10 false, MarkerRecord.mk 15 true,
    MarkerRecord.mk 20 false, MarkerRecord.mk 30 false, MarkerRecord.mk 40 false] 0
    (by decide) (by decide)

/-- Claim C3 (counterexample): on the spec's example stream
`[(10,none),(20,none),(25,ignore),(30,none)]` with delay 0 the parser
produces no chunks at all (the parse fails), so it does not produce the
two claimed chunks nor the claimed highlight sequence. -/
theorem claim_C3_counterexample :
    (loadChunksFromFile [MarkerRecord.mk 10 false, MarkerRecord.mk 20 false,
      MarkerRecord.mk 25 true, MarkerRecord.mk 30 false] 0).toOption = none := by
  rfl

/-- Claim C3 (amended): on the stream
`[(10,none),(20,none),(25,ignore),(30,none)]` with delay 0, the marker at
20 closes the first chunk and returns the machine to Idle, so the
ignore-marker at 25 is an out-of-chunk ignored marker: parsing fails with
that error carrying timestamp 25, and no chunks or highlights exist. -/
theorem claim_C3_example_run :
    loadChunksFromFile [MarkerRecord.mk 10 false, MarkerRecord.mk 20 false,
      MarkerRecord.mk 25 true, MarkerRecord.mk 30 false] 0 =
      Except.error (GoPanic.outOfChunkIgnored 25) := by
  rfl

/-- Claim C4 (counterexample): the first finalized chunk of a successful
parse is named `chunk-00.mp4`, not the bare `chunk-00` the claim requires
("with nothing else in the name"): markut.go line 97 appends an `.mp4`
extension. -/
theorem claim_C4_counterexample :
    (loadChunksFromFile [MarkerRecord.mk 10 false, MarkerRecord.mk 20 false] 0).toOption =
      some [Chunk.mk 10 20 []
        (String.mk ['c', 'h', 'u', 'n', 'k', '-', '0', '0', '.', 'm', 'p', '4'])] ∧
    String.mk ['c', 'h', 'u', 'n', 'k', '-', '0', '0', '.', 'm', 'p', '4'] ≠
      String.mk ['c', 'h', 'u', 'n', 'k', '-', '0', '0'] := by
  constructor
  · rfl
  · decide

/-- Claim C4 (amended): in every successful parse the i-th finalized chunk
(zero-based, emission order) is named `chunk-` followed by i zero-padded
to at least 2 digits followed by `.mp4` — `chunkName i` spells exactly
that string. -/
theorem claim_C4_chunk_names (rs : List MarkerRecord) (delay : Int) (cs : List Chunk)
    (hok : loadChunksFromFile rs delay = Except.ok cs) :
    ∀ i (h : i < cs.length), cs[i].Name = chunkName i :=
  loadChunksGo_names rs delay [] none cs (fun i h => absurd h (Nat.not_lt_zero i)) hok

theorem claim_C4_chunk_names_witness :
    ([Chunk.mk 10 20 [] (chunkName 0), Chunk.mk 20 40 [] (chunkName 1)] :
      List Chunk)[1].Name = chunkName 1 :=
  claim_C4_chunk_names [MarkerRecord.mk 10 false, MarkerRecord.mk 20 false,
    MarkerRecord.mk 20 false, MarkerRecord.mk 40 false] 0
    [Chunk.mk 10 20 [] (chunkName 0), Chunk.mk 20 40 [] (chunkName 1)] rfl 1 (by decide)

/-- Claim C5 (counterexample): the stream
`[(10,none),(20,none),(25,ignore),(30,none)]` has an odd number of
non-ignore markers (3) but does not fail with the unclosed-chunk error —
it fails earlier, with the out-of-chunk ignored-marker error at 25. -/
theorem claim_C5_counterexample :
    nonIgnoreCount [MarkerRecord.mk 10 false, MarkerRecord.mk 20 false,
      MarkerRecord.mk 25 true, MarkerRecord.mk 30 false] % 2 = 1 ∧
    loadChunksFromFile [MarkerRecord.mk 10 false, MarkerRecord.mk 20 false,
      MarkerRecord.mk 25 true, MarkerRecord.mk 30 false] 0 ≠
      Except.error GoPanic.unclosedChunk := by
  constructor
  · decide
  · decide

/-- Claim C5 (amended): a stream whose first record is an ignore-marker
fails with the out-of-chunk ignored-marker error carrying the offending
(delay-adjusted) timestamp; and a stream with an odd number of non-ignore
markers in which every ignore-marker arrives while a chunk is open fails
with the unclosed-chunk error (without that extra condition the failure
may instead be the out-of-chunk error, as the counterexample shows). -/
theorem claim_C5_parser_rejection (r : MarkerRecord) (rs rs2 : List MarkerRecord)
    (delay : Int) (hr : r.ignore = true)
    (hodd : nonIgnoreCount rs2 % 2 = 1)
    (hscan : ignoresOnlyWhenOpen false rs2 = true) :
    loadChunksFromFile (r :: rs) delay =
      Except.error (GoPanic.outOfChunkIgnored (r.timestamp + delay)) ∧
    loadChunksFromFile rs2 delay = Except.error GoPanic.unclosedChunk := by
  constructor
  · rw [loadChunksFromFile, loadChunksGo]
    simp [hr]
  · have h := loadChunksGo_run rs2 delay [] none (by simpa using hscan)
    exact h.2 (by simpa using hodd)

theorem claim_C5_parser_rejection_witness :
    loadChunksFromFile [MarkerRecord.mk 7 true] 2 =
      Except.error (GoPanic.outOfChunkIgnored 9) ∧
    loadChunksFromFile [MarkerRecord.mk 10 false] 2 =
      Except.error GoPanic.unclosedChunk :=
  claim_C5_parser_rejection (MarkerRecord.mk 7 true) [] [MarkerRecord.mk 10 false] 2
    rfl (by decide) (by decide)

/-- Claim C6: for every record stream and every integer delay `d`, parsing
with delay `d` yields `none` exactly when parsing with delay 0 yields
`none` (same success/failure), and on success yields the chunk list of the
delay-0 parse mapped by `shiftChunk d`, which adds exactly `d` to every
`Start`, `End` and `Ignored` timestamp (and keeps the names, hence also
the chunk count). -/
theorem claim_C6_delay_invariance (rs : List MarkerRecord) (d : Int) :
    (loadChunksFromFile rs d).toOption =
      (loadChunksFromFile rs 0).toOption.map (List.map (shiftChunk d)) := by
  have h := loadChunksGo_shift rs d [] none
  simpa [loadChunksFromFile] using h

/-- Claim C7: for every integer `s` with `0 ≤ s ≤ 359999`, decoding the
`HH:MM:SS` rendering of `s` recovers `s`: `tsToSecs (secsToTs s) = ok s`. -/
theorem claim_C7_codec_roundtrip (s : Int) (h0 : 0 ≤ s) (_h1 : s ≤ 359999) :
    tsToSecs (secsToTs s) = Except.ok s :=
  tsToSecs_secsToTs s h0

theorem claim_C7_codec_roundtrip_witness :
    (0 : Int) ≤ 4521 ∧ (4521 : Int) ≤ 359999 ∧
      tsToSecs (secsToTs 4521) = Except.ok (4521 : Int) :=
  ⟨by decide, by decide, claim_C7_codec_roundtrip 4521 (by decide) (by decide)⟩

/-- Claim C8 (counterexample): the parser does not enforce timestamp
order, so the stream `[(20,none),(10,none)]` parses successfully into a
chunk whose `End` (10) precedes its `Start` (20), refuting the claim for
arbitrary successful parses. -/
theorem claim_C8_counterexample :
    (loadChunksFromFile [MarkerRecord.mk 20 false, MarkerRecord.mk 10 false] 0).toOption =
      some [Chunk.mk 20 10 [] (chunkName 0)] ∧
    ¬ ((Chunk.mk (20 : Int) 10 [] (chunkName 0)).Start ≤
        (Chunk.mk (20 : Int) 10 [] (chunkName 0)).End) := by
  constructor
  · rfl
  · decide

/-- Claim C8 (amended): for every marker stream whose timestamps are
non-decreasing in input order, every chunk of a successful parse satisfies
`Start ≤ End`, and every ignored timestamp `t` satisfies
`Start ≤ t ≤ End`. -/
theorem claim_C8_chunk_invariants (rs : List MarkerRecord) (delay : Int) (cs : List Chunk)
    (hsorted : List.Pairwise (fun a b => a.timestamp ≤ b.timestamp) rs)
    (hok : loadChunksFromFile rs delay = Except.ok cs) :
    ∀ c ∈ cs, c.Start ≤ c.End ∧ ∀ t ∈ c.Ignored, c.Start ≤ t ∧ t ≤ c.End := by
  have h := loadChunksGo_wellFormed rs delay [] none cs hsorted
    (by intro c hc; simp at hc) (by intro cur' hcur; cases hcur) hok
  exact h

theorem claim_C8_chunk_invariants_witness :
    (Chunk.mk (10 : Int) 20 [15] (chunkName 0)).Start ≤
        (Chunk.mk (10 : Int) 20 [15] (chunkName 0)).End ∧
      ∀ t ∈ (Chunk.mk (10 : Int) 20 [15] (chunkName 0)).Ignored,
        (Chunk.mk (10 : Int) 20 [15] (chunkName 0)).Start ≤ t ∧
          t ≤ (Chunk.mk (10 : Int) 20 [15] (chunkName 0)).End :=
  claim_C8_chunk_invariants
    [MarkerRecord.mk 10 false, MarkerRecord.mk 15 true, MarkerRecord.mk 20 false] 0
    [Chunk.mk 10 20 [15] (chunkName 0)] (by decide) rfl
    (Chunk.mk 10 20 [15] (chunkName 0)) (by decide)

/-- Claim C9: for every non-empty chunk sequence whose chunks satisfy
`Start ≤ End` and `Start ≤ t` for each ignored `t`, highlight derivation
succeeds and the decoded timestamp of the last `cut` highlight equals the
sum of `End - Start` over all chunks. -/
theorem claim_C9_highlight_sum (chunks : List Chunk) (hne : chunks ≠ [])
    (h : ∀ c ∈ chunks, c.Start ≤ c.End ∧ ∀ t ∈ c.Ignored, c.Start ≤ t) :
    ∃ hs lastCut, highlightChunks chunks = Except.ok hs ∧
      (hs.filter (fun x => x.message == cutMsg)).getLast? = some lastCut ∧
      tsToSecs lastCut.timestamp = Except.ok (totalDuration chunks) := by
  obtain ⟨hs, hok, hlast⟩ := highlightChunksGo_ok chunks 0 h
  have hl := hlast hne
  rw [zero_add] at hl
  refine ⟨hs, Highlight.mk (secsToTs (totalDuration chunks)) cutMsg, hok, ?_, ?_⟩
  · exact getLast?_filter (fun (x : Highlight) => x.message == cutMsg) hs
      (Highlight.mk (secsToTs (totalDuration chunks)) cutMsg) hl rfl
  · exact tsToSecs_secsToTs _ (totalDuration_nonneg chunks (fun c hc => (h c hc).1))

theorem claim_C9_highlight_sum_witness :
    ∃ hs lastCut, highlightChunks [Chunk.mk 0 2 [1] (chunkName 0)] = Except.ok hs ∧
      (hs.filter (fun x => x.message == cutMsg)).getLast? = some lastCut ∧
      tsToSecs lastCut.timestamp = Except.ok (totalDuration [Chunk.mk 0 2 [1] (chunkName 0)]) :=
  claim_C9_highlight_sum [Chunk.mk 0 2 [1] (chunkName 0)] (by decide) (by decide)

/-- Claim C10: for every chunk list whose chunks satisfy `Start ≤ End` and
`Start ≤ t` for each ignored `t`, highlight derivation never reaches the
Duration assertion failure: it totalizes to a successful result. -/
theorem claim_C10_highlights_total (chunks : List Chunk)
    (h : ∀ c ∈ chunks, c.Start ≤ c.End ∧ ∀ t ∈ c.Ignored, c.Start ≤ t) :
    ∃ hs, highlightChunks chunks = Except.ok hs := by
  obtain ⟨hs, hok, _⟩ := highlightChunksGo_ok chunks 0 h
  exact ⟨hs, hok⟩

theorem claim_C10_highlights_total_witness :
    ∃ hs, highlightChunks [Chunk.mk 5 9 [6, 7] (chunkName 0),
      Chunk.mk 9 12 [] (chunkName 1)] = Except.ok hs :=
  claim_C10_highlights_total
    [Chunk.mk 5 9 [6, 7] (chunkName 0), Chunk.mk 9 12 [] (chunkName 1)] (by decide)

end Markut
